import Mathlib

/-!
Verification of the manifest-to-filesystem materialization engine of
`generate_structure.py`.

The script holds a global dict `structure` mapping relative slash-separated
paths to file contents, and a function `create_structure(base_path=".")` that,
for each `(path, content)` item in insertion order, computes
`full_path = os.path.join(base_path, path)`, runs
`os.makedirs(os.path.dirname(full_path), exist_ok=True)`, and writes `content`
to `full_path` opened in mode `"w"` (create-or-truncate).

The filesystem is modelled as a partial map from absolute, normalized segment
lists to nodes (directories or files with string contents).  Path resolution
follows the OS: segments are split on `/`, `.` and empty segments are dropped,
and `..` pops one segment (staying at the root when already there).  The
virtual root `[]` always exists as a directory.
-/

namespace GenStruct

/-- A filesystem node: a regular file with its full byte content, or a
directory. -/
inductive Node
  | file (content : String)
  | dir
deriving DecidableEq

/-- An absolute path, as the list of its segments from the virtual root. -/
abbrev Path := List String

/-- A manifest entry: a relative slash-separated path string paired with the
file content to write there. -/
abbrev Entry := String × String

/-- The filesystem state: a partial map from normalized absolute paths to
nodes.  The root `[]` is handled separately by `getNode` and is always a
directory. -/
def FS := Path → Option Node

/-- The empty filesystem: nothing exists except the implicit root. -/
def emptyFS : FS := fun _ => none

/-- Split a character list on `/`, keeping empty segments (they are dropped
later by `normalize`, as the OS ignores them). -/
def splitSegs : List Char → List (List Char)
  | [] => [[]]
  | c :: rest =>
    match splitSegs rest, decide (c = '/') with
    | r, true => [] :: r
    | seg :: r, false => (c :: seg) :: r
    | [], false => [[c]]

/-- Split a path string into its `/`-separated segments. -/
def splitPath (s : String) : List String :=
  (splitSegs s.toList).map (fun cs => String.mk cs)

/-- Whether a path string is absolute (starts with `/`), in which case
`os.path.join` discards the base. -/
def isAbs (s : String) : Bool :=
  match s.toList with
  | c :: _ => decide (c = '/')
  | [] => false

/-- `os.path.join base rel` at the segment level: an absolute `rel` replaces
the base, otherwise the segments are appended textually (no resolution yet,
exactly as `os.path.join` performs no normalization). -/
def joinPath (base : Path) (rel : String) : Path :=
  if isAbs rel then splitPath rel else base ++ splitPath rel

/-- One step of OS path resolution: `..` pops a segment (a no-op at the
root), `.` and empty segments are ignored, anything else descends. -/
def normStep (acc : Path) (s : String) : Path :=
  if s = ".." then acc.dropLast
  else if s = "." ∨ s = "" then acc
  else acc ++ [s]

/-- Resolve a textual segment list to the normalized absolute path the OS
would address. -/
def normalize (p : Path) : Path := p.foldl normStep []

/-- Look up the node addressed by a (possibly unnormalized) path.  The
virtual root always exists as a directory. -/
def getNode (fs : FS) (p : Path) : Option Node :=
  if normalize p = [] then some Node.dir else fs (normalize p)

/-- Store a node at the normalized position of `p`. -/
def setNode (fs : FS) (p : Path) (n : Node) : FS :=
  fun q => if q = normalize p then some n else fs q

/-- Errors an operation can raise: `notADir` when directory creation meets an
existing regular file, `isADir` when opening a directory for writing, and
`noParent` when the parent of a write target does not exist as a directory. -/
inductive FsError
  | notADir (p : Path)
  | isADir (p : Path)
  | noParent (p : Path)
deriving DecidableEq

/-- The nonempty textual initial segments of a path, shortest first: the
chain of directories `os.makedirs` visits for its argument. -/
def initSegs (p : Path) : List Path :=
  (List.range p.length).map (fun i => p.take (i + 1))

/-- Walk a list of directory targets in order, creating each missing one and
failing on the first that exists as a regular file; an existing directory is
a no-op.  This is the behaviour of `os.makedirs(..., exist_ok=True)`. -/
def mkdirs : FS → List Path → FS × Option FsError
  | fs, [] => (fs, none)
  | fs, q :: qs =>
    match getNode fs q with
    | some (Node.file _) => (fs, some (FsError.notADir (normalize q)))
    | some Node.dir => mkdirs fs qs
    | none => mkdirs (setNode fs q Node.dir) qs

/-- `os.makedirs(p, exist_ok=True)`: ensure every component of `p` exists as
a directory. -/
def makedirs (fs : FS) (p : Path) : FS × Option FsError :=
  mkdirs fs (initSegs p)

/-- `open(p, "w")` followed by a full write of `c`: fails on a directory,
creates the file if absent and fully truncates and overwrites it if present;
requires the parent to exist as a directory. -/
def writeW (fs : FS) (p : Path) (c : String) : FS × Option FsError :=
  match getNode fs p with
  | some Node.dir => (fs, some (FsError.isADir (normalize p)))
  | _ =>
    if getNode fs p.dropLast = some Node.dir then
      (setNode fs p (Node.file c), none)
    else (fs, some (FsError.noParent (normalize p)))

/-- The loop body of `create_structure` for one manifest entry: join, ensure
the parent directory chain, then write. -/
def processEntry (base : Path) (fs : FS) (e : Entry) : FS × Option FsError :=
  match makedirs fs (joinPath base e.1).dropLast with
  | (fs1, some err) => (fs1, some err)
  | (fs1, none) => writeW fs1 (joinPath base e.1) e.2

/-- Process the manifest entries in order, stopping at the first error (an
uncaught Python exception aborts the loop). -/
def runEntries (base : Path) : List Entry → FS → FS × Option FsError
  | [], fs => (fs, none)
  | e :: es, fs =>
    match processEntry base fs e with
    | (fs1, none) => runEntries base es fs1
    | (fs1, some err) => (fs1, some err)

/-- The materialization engine: run a manifest against a base directory on a
filesystem state, returning the final state and the first error, if any. -/
def materialize (manifest : List Entry) (base : Path) (fs : FS) : FS × Option FsError :=
  runEntries base manifest fs

/-- The value `create_structure` hands back to its caller: Python returns
`None` (after printing a message) on success, and an uncaught exception
otherwise.  `some ()` models the `None` return, `none` models the raise. -/
def materialize_return (manifest : List Entry) (base : Path) (fs : FS) : Option Unit :=
  match (materialize manifest base fs).2 with
  | none => some ()
  | some _ => none

/-- The resolved absolute path of a manifest entry. -/
def fullOf (base : Path) (e : Entry) : Path := normalize (joinPath base e.1)

/-- The normalized directory chain `os.makedirs` ensures for one entry. -/
def dirTargets (base : Path) (e : Entry) : List Path :=
  (initSegs (joinPath base e.1).dropLast).map normalize

/-- The resolved paths of all entries of a manifest. -/
def resolvedPaths (base : Path) (l : List Entry) : List Path :=
  l.map (fullOf base)

/-- All normalized directory positions ensured across a manifest. -/
def allDirs (base : Path) (l : List Entry) : List Path :=
  l.foldr (fun e acc => dirTargets base e ++ acc) []

/-- The content of the last manifest entry resolving to `p`, if any. -/
def lastContent (base : Path) (l : List Entry) (p : Path) : Option String :=
  ((l.filter (fun e => fullOf base e = p)).getLast?).map (fun e => e.2)

/-- The extensional final state of a successful run: files as dictated by the
last entry resolving to each path, fresh directories along ensured chains,
everything else untouched. -/
def finalView (base : Path) (l : List Entry) (fs : FS) : FS :=
  fun p =>
    match lastContent base l p with
    | some c => some (Node.file c)
    | none =>
      if p ∈ allDirs base l ∧ p ≠ [] ∧ fs p = none then some Node.dir else fs p

/-- Overwrite a state with the file writes of a manifest, leaving every other
position unchanged. -/
def overwriteFiles (base : Path) (l : List Entry) (fs : FS) : FS :=
  fun p =>
    match lastContent base l p with
    | some c => some (Node.file c)
    | none => fs p

/-- Python dict item assignment `d[k] = v`: replace the value in place if the
key is present, otherwise append the pair. -/
def dictInsert (d : List Entry) (k v : String) : List Entry :=
  if d.any (fun e => e.1 = k) then d.map (fun e => if e.1 = k then (k, v) else e)
  else d ++ [(k, v)]

/-- Build a Python dict from a literal list of key-value pairs by successive
item assignment, as a dict literal does. -/
def dictOfList (l : List Entry) : List Entry :=
  l.foldl (fun d e => dictInsert d e.1 e.2) []

/-- Python dict lookup on the ordered entry list. -/
def dictLookup (d : List Entry) (k : String) : Option String :=
  (d.find? (fun e => e.1 = k)).map (fun e => e.2)

/-- Status of one written entry in the report described by the spec. -/
inductive EntryStatus
  | created
  | overwritten
deriving DecidableEq

/-- Modelled from the spec: the `MaterializationReport` that `materialize`
is described to return — one pair per entry in processing order, whose
status is derived by checking the file's existence immediately before the
write.  The source's `create_structure` returns no such value; this
definition follows the spec's words so that the two can be compared. -/
def materializeReportSpec : List Entry → Path → FS → List (String × EntryStatus)
  | [], _, _ => []
  | e :: es, base, fs =>
    (e.1,
      match getNode fs (joinPath base e.1) with
      | some (Node.file _) => EntryStatus.overwritten
      | _ => EntryStatus.created) ::
      materializeReportSpec es base (processEntry base fs e).1

/-- The global dict literal `structure` of the script, as the ordered list
of key-value pairs written in the source (`structure` is a Lean keyword, so
the Lean name differs).  Braces and apostrophes inside contents are written
as the escapes \x7b, \x7d and \x27. -/
def structureTable : List Entry := [
  (".github/workflows/main.yml", ""),
  (".husky/pre-commit", "#!/bin/sh\n. \"$(dirname \"$0\")/_/husky.sh\"\n\nnpm run lint\n"),
  (".vscode/settings.json", "\x7b\n  \"editor.formatOnSave\": true,\n  \"eslint.validate\": [\"typescript\"],\n  \"files.exclude\": \x7b\n    \"**/dist\": true,\n    \"**/node_modules\": true\n  \x7d\n\x7d\n"),
  ("dist/.gitkeep", ""),
  ("payloads/login-success.xml", "<login><status>success</status></login>\n"),
  ("payloads/create-user.tmpl", "\x7b \"user\": \"\x7b\x7busername\x7d\x7d\" \x7d\n"),
  ("reports/allure-report/.gitkeep", ""),
  ("reports/allure-results/.gitkeep", ""),
  ("src/core/test-executor.ts", "// Parses YAML, runs tests, and performs assertions\n"),
  ("src/core/yaml-parser.ts", "// Logic for reading and validating YAML files\n"),
  ("src/helpers/auth-handler.ts", "// Token generation and session management\n"),
  ("src/helpers/data-generator.ts", "// Functions to create dynamic test data\n"),
  ("src/helpers/logger.ts", "// Logger configuration\n"),
  ("src/types/index.ts", "// Shared types\n"),
  ("tests/api/definitions/login.yml", "# Login test YAML definition\n"),
  ("tests/api/expected/login.json", "\x7b\n  \"status\": 200,\n  \"message\": \"Success\"\n\x7d\n"),
  ("tests/api/specs/login.spec.ts", "// Playwright test for login\n"),
  ("tests/ui/.gitkeep", ""),
  (".env", "BASE_URL=https://example.com\n"),
  (".env.development", "DEBUG=true\n"),
  (".env.staging", "STAGING=true\n"),
  (".eslintignore", "dist/\nnode_modules/\n"),
  (".eslintrc.js", "module.exports = \x7b extends: [\x27eslint:recommended\x27] \x7d;\n"),
  (".gitignore", "node_modules/\ndist/\n.env*\n"),
  (".prettierrc", "\x7b \"semi\": true, \"singleQuote\": true \x7d\n"),
  ("allure.config.js", "// Allure config\n"),
  ("Dockerfile", "# Dockerfile for test environment\n"),
  ("package.json", "\x7b\n  \"name\": \"my-project\",\n  \"scripts\": \x7b\n    \"test\": \"playwright test\"\n  \x7d\n\x7d\n"),
  ("package-lock.json", ""),
  ("playwright.config.ts", "// Playwright configuration\n"),
  ("tsconfig.json", "\x7b\n  \"compilerOptions\": \x7b\n    \"target\": \"ES6\",\n    \"module\": \"commonjs\",\n    \"outDir\": \"dist\"\n  \x7d\n\x7d\n")]

/-- The Python dict `structure`: the literal table passed through dict
construction (successive item assignment). -/
def structureDict : List Entry := dictOfList structureTable

/-- `create_structure(base_path)` of the script: materialize the global dict
`structure` against the base path, on a filesystem state. -/
def create_structure (base : Path) (fs : FS) : FS × Option FsError :=
  materialize structureDict base fs

end GenStruct

namespace GenStruct

theorem setNode_apply (fs : FS) (p : Path) (n : Node) (q : Path) :
    setNode fs p n q = if q = normalize p then some n else fs q := rfl

/-- Characterization of a successful `mkdirs` walk: fresh directories appear
exactly at the previously absent non-root targets; nothing else changes. -/
theorem mkdirs_ok_apply {fs fs' : FS} {qs : List Path}
    (h : mkdirs fs qs = (fs', none)) (p : Path) :
    fs' p = if p ∈ qs.map normalize ∧ p ≠ [] ∧ fs p = none then some Node.dir else fs p := by
  induction qs generalizing fs with
  | nil =>
    simp only [mkdirs, Prod.mk.injEq] at h
    simp [← h.1]
  | cons q qs ih =>
    cases hq : getNode fs q with
    | none =>
      simp only [mkdirs, hq] at h
      have hroot : normalize q ≠ [] := fun hz => by simp [getNode, hz] at hq
      have hfsq : fs (normalize q) = none := by simpa [getNode, hroot] using hq
      rw [ih h]
      by_cases hpq : p = normalize q
      · subst hpq
        simp [setNode_apply, hroot, hfsq, List.mem_cons]
      · have hset : setNode fs q Node.dir p = fs p := by simp [setNode_apply, hpq]
        rw [hset]
        simp [List.mem_cons, hpq]
    | some n =>
      cases n with
      | file c => simp [mkdirs, hq] at h
      | dir =>
        simp only [mkdirs, hq] at h
        rw [ih h]
        by_cases hpq : p = normalize q
        · subst hpq
          by_cases hr : normalize q = []
          · simp [hr]
          · have hfs : fs (normalize q) = some Node.dir := by
              simpa [getNode, hr] using hq
            simp [hfs]
        · simp [List.mem_cons, hpq]

/-- A successful `mkdirs` implies none of its targets was a regular file to
begin with. -/
theorem mkdirs_ok_not_file {fs fs' : FS} {qs : List Path}
    (h : mkdirs fs qs = (fs', none)) :
    ∀ q ∈ qs, ∀ c, getNode fs q ≠ some (Node.file c) := by
  induction qs generalizing fs with
  | nil => intro q hq; simp at hq
  | cons q qs ih =>
    intro q' hq' c hcon
    cases hq : getNode fs q with
    | none =>
      simp only [mkdirs, hq] at h
      have hroot : normalize q ≠ [] := fun hz => by simp [getNode, hz] at hq
      have hfsq : fs (normalize q) = none := by simpa [getNode, hroot] using hq
      rcases List.mem_cons.1 hq' with rfl | hmem
      · simp [hq] at hcon
      · have hz : normalize q' ≠ [] := by
          intro hz; simp [getNode, hz] at hcon
        have hcc : fs (normalize q') = some (Node.file c) := by
          simpa [getNode, hz] using hcon
        have hne : normalize q' ≠ normalize q := by
          intro he; rw [he, hfsq] at hcc; cases hcc
        exact ih h q' hmem c (by simp [getNode, hz, setNode_apply, hne, hcc])
    | some n =>
      cases n with
      | file c0 => simp [mkdirs, hq] at h
      | dir =>
        simp only [mkdirs, hq] at h
        rcases List.mem_cons.1 hq' with rfl | hmem
        · simp [hq] at hcon
        · exact ih h q' hmem c hcon

/-- After a successful `mkdirs`, every target exists as a directory. -/
theorem mkdirs_ok_dirs {fs fs' : FS} {qs : List Path}
    (h : mkdirs fs qs = (fs', none)) :
    ∀ q ∈ qs, getNode fs' q = some Node.dir := by
  intro q hq
  by_cases hz : normalize q = []
  · simp [getNode, hz]
  · have happly := mkdirs_ok_apply h (normalize q)
    have hmem : normalize q ∈ qs.map normalize := List.mem_map_of_mem normalize hq
    rw [getNode, if_neg hz, happly]
    cases hn : fs (normalize q) with
    | none => simp [hmem, hz, hn]
    | some n =>
      cases n with
      | file c =>
        exact absurd ((by simp [getNode, hz, hn] : getNode fs q = some (Node.file c)))
          (mkdirs_ok_not_file h q hq c)
      | dir => simp [hn]

/-- `mkdirs` is a no-op when every target already exists as a directory. -/
theorem mkdirs_noop {fs : FS} {qs : List Path}
    (h : ∀ q ∈ qs, getNode fs q = some Node.dir) :
    mkdirs fs qs = (fs, none) := by
  induction qs with
  | nil => rfl
  | cons q qs ih =>
    have hq : getNode fs q = some Node.dir := h q (List.mem_cons_self q qs)
    simp only [mkdirs, hq]
    exact ih (fun q' hq' => h q' (List.mem_cons_of_mem q hq'))

/-- `mkdirs` never changes an occupied position, whatever the outcome. -/
theorem mkdirs_untouched {fs : FS} {qs : List Path} {p : Path}
    (h : fs p ≠ none) : (mkdirs fs qs).1 p = fs p := by
  induction qs generalizing fs with
  | nil => rfl
  | cons q qs ih =>
    cases hq : getNode fs q with
    | none =>
      have hroot : normalize q ≠ [] := by
        intro hz; simp [getNode, hz] at hq
      have hfsq : fs (normalize q) = none := by simpa [getNode, hroot] using hq
      simp only [mkdirs, hq]
      have hne : p ≠ normalize q := by
        intro he; rw [he] at h; exact h hfsq
      have : setNode fs q Node.dir p = fs p := by simp [setNode_apply, hne]
      rw [ih (by rw [this]; exact h), this]
    | some n =>
      cases n with
      | file c => simp [mkdirs, hq]
      | dir => simp only [mkdirs, hq]; exact ih h

/-- Positions created by `mkdirs` are directories at its targets. -/
theorem mkdirs_new {fs : FS} {qs : List Path} {p : Path}
    (h : fs p = none) :
    (mkdirs fs qs).1 p = none ∨
      ((mkdirs fs qs).1 p = some Node.dir ∧ p ∈ qs.map normalize) := by
  induction qs generalizing fs with
  | nil => exact Or.inl h
  | cons q qs ih =>
    cases hq : getNode fs q with
    | none =>
      simp only [mkdirs, hq]
      by_cases hpq : p = normalize q
      · right
        constructor
        · rw [mkdirs_untouched (by simp [setNode_apply, hpq])]
          simp [setNode_apply, hpq]
        · simp [List.mem_cons, hpq]
      · have hset : setNode fs q Node.dir p = none := by simp [setNode_apply, hpq, h]
        rcases ih hset with h1 | ⟨h1, h2⟩
        · exact Or.inl h1
        · exact Or.inr ⟨h1, by simp [List.mem_cons, h2]⟩
    | some n =>
      cases n with
      | file c => simp only [mkdirs, hq]; exact Or.inl h
      | dir =>
        simp only [mkdirs, hq]
        rcases ih h with h1 | ⟨h1, h2⟩
        · exact Or.inl h1
        · exact Or.inr ⟨h1, by simp [List.mem_cons, h2]⟩

end GenStruct

namespace GenStruct

/-- `getNode` only depends on the normalized path. -/
theorem getNode_normalize_eq (fs : FS) {p q : Path} (h : normalize p = normalize q) :
    getNode fs p = getNode fs q := by rw [getNode, getNode, h]

/-- A successful `open(p, "w")` write sets exactly the target file; it
requires the target not to be a directory and the parent to be one. -/
theorem writeW_ok {fs fs' : FS} {p : Path} {c : String}
    (h : writeW fs p c = (fs', none)) :
    fs' = setNode fs p (Node.file c) ∧ getNode fs p ≠ some Node.dir ∧
      getNode fs p.dropLast = some Node.dir := by
  cases hq : getNode fs p with
  | none =>
    simp only [writeW, hq] at h
    by_cases hpar : getNode fs p.dropLast = some Node.dir
    · rw [if_pos hpar] at h
      simp only [Prod.mk.injEq, and_true] at h
      exact ⟨h.symm, by simp [hq], hpar⟩
    · rw [if_neg hpar] at h
      simp at h
  | some n =>
    cases n with
    | file c0 =>
      simp only [writeW, hq] at h
      by_cases hpar : getNode fs p.dropLast = some Node.dir
      · rw [if_pos hpar] at h
        simp only [Prod.mk.injEq, and_true] at h
        exact ⟨h.symm, by simp [hq], hpar⟩
      · rw [if_neg hpar] at h
        simp at h
    | dir => simp [writeW, hq] at h

/-- A failed write leaves the filesystem untouched. -/
theorem writeW_fail {fs fs' : FS} {p : Path} {c : String} {err : FsError}
    (h : writeW fs p c = (fs', some err)) : fs' = fs := by
  cases hq : getNode fs p with
  | none =>
    simp only [writeW, hq] at h
    by_cases hpar : getNode fs p.dropLast = some Node.dir
    · rw [if_pos hpar] at h; simp at h
    · rw [if_neg hpar] at h
      simp only [Prod.mk.injEq] at h
      exact h.1.symm
  | some n =>
    cases n with
    | file c0 =>
      simp only [writeW, hq] at h
      by_cases hpar : getNode fs p.dropLast = some Node.dir
      · rw [if_pos hpar] at h; simp at h
      · rw [if_neg hpar] at h
        simp only [Prod.mk.injEq] at h
        exact h.1.symm
    | dir =>
      simp only [writeW, hq, Prod.mk.injEq] at h
      exact h.1.symm

/-- A write changes nothing away from its resolved target, whatever the
outcome. -/
theorem writeW_untouched {fs : FS} {p q : Path} {c : String} (h : q ≠ normalize p) :
    (writeW fs p c).1 q = fs q := by
  cases hq : getNode fs p with
  | none =>
    simp only [writeW, hq]
    by_cases hpar : getNode fs p.dropLast = some Node.dir
    · simp [hpar, setNode_apply, h]
    · simp [hpar]
  | some n =>
    cases n with
    | file c0 =>
      simp only [writeW, hq]
      by_cases hpar : getNode fs p.dropLast = some Node.dir
      · simp [hpar, setNode_apply, h]
      · simp [hpar]
    | dir => simp [writeW, hq]

/-- A write never turns a directory into anything else. -/
theorem writeW_keeps_dir {fs : FS} {p q : Path} {c : String} (h : fs q = some Node.dir) :
    (writeW fs p c).1 q = some Node.dir := by
  by_cases hpq : q = normalize p
  · have hq : getNode fs p = some Node.dir := by
      by_cases hz : normalize p = []
      · simp [getNode, hz]
      · rw [getNode, if_neg hz, ← hpq, h]
    simp [writeW, hq, h]
  · rw [writeW_untouched hpq, h]

/-- A write can only populate a previously empty position with the written
file, at its own resolved target. -/
theorem writeW_new {fs : FS} {p q : Path} {c : String} (h : fs q = none) :
    (writeW fs p c).1 q = none ∨
      ((writeW fs p c).1 q = some (Node.file c) ∧ q = normalize p) := by
  by_cases hpq : q = normalize p
  · have hpair : writeW fs p c = ((writeW fs p c).1, (writeW fs p c).2) := rfl
    cases hr : (writeW fs p c).2 with
    | none =>
      rw [hr] at hpair
      obtain ⟨hset, -, -⟩ := writeW_ok hpair
      right
      refine ⟨?_, hpq⟩
      rw [hset, setNode_apply, if_pos hpq]
    | some err =>
      rw [hr] at hpair
      have := writeW_fail hpair
      left
      rw [this, h]
  · rw [writeW_untouched hpq, h]
    exact Or.inl rfl

/-- A write keeps every existing regular file a regular file. -/
theorem writeW_file_as_file {fs : FS} {p q : Path} {c c0 : String}
    (h : fs q = some (Node.file c0)) :
    ∃ c', (writeW fs p c).1 q = some (Node.file c') := by
  by_cases hpq : q = normalize p
  · have hpair : writeW fs p c = ((writeW fs p c).1, (writeW fs p c).2) := rfl
    cases hr : (writeW fs p c).2 with
    | none =>
      rw [hr] at hpair
      obtain ⟨hset, -, -⟩ := writeW_ok hpair
      exact ⟨c, by rw [hset, setNode_apply, if_pos hpq]⟩
    | some err =>
      rw [hr] at hpair
      have := writeW_fail hpair
      exact ⟨c0, by rw [this, h]⟩
  · exact ⟨c0, by rw [writeW_untouched hpq, h]⟩

/-- Decomposition of a successful entry step into its two operations. -/
theorem processEntry_ok {base : Path} {fs fs' : FS} {e : Entry}
    (h : processEntry base fs e = (fs', none)) :
    ∃ fs1, makedirs fs (joinPath base e.1).dropLast = (fs1, none) ∧
      writeW fs1 (joinPath base e.1) e.2 = (fs', none) := by
  cases hm : makedirs fs (joinPath base e.1).dropLast with
  | mk fs1 r =>
    cases r with
    | none =>
      refine ⟨fs1, rfl, ?_⟩
      simpa [processEntry, hm] using h
    | some err => simp [processEntry, hm] at h

/-- A successful entry step's resolved target is neither on its own directory
chain nor the root. -/
theorem processEntry_ok_full {base : Path} {fs fs' : FS} {e : Entry}
    (h : processEntry base fs e = (fs', none)) :
    fullOf base e ∉ dirTargets base e ∧ fullOf base e ≠ [] := by
  obtain ⟨fs1, hmk, hw⟩ := processEntry_ok h
  obtain ⟨hset, hnotdir, hpar⟩ := writeW_ok hw
  have hmk' : mkdirs fs (initSegs ((joinPath base e.1).dropLast)) = (fs1, none) := hmk
  constructor
  · intro hmem
    obtain ⟨q, hq, hnq⟩ := List.mem_map.1 hmem
    have hd := mkdirs_ok_dirs hmk' q hq
    apply hnotdir
    rw [← @getNode_normalize_eq fs1 q (joinPath base e.1) hnq]
    exact hd
  · intro hz
    apply hnotdir
    have hz' : normalize (joinPath base e.1) = [] := hz
    rw [getNode, if_pos hz']

/-- Pointwise characterization of one successful entry step: it writes the
file at the resolved target, creates fresh directories along the entry's
chain, and changes nothing else. -/
theorem processEntry_ok_apply {base : Path} {fs fs' : FS} {e : Entry}
    (h : processEntry base fs e = (fs', none)) (p : Path) :
    fs' p = if p = fullOf base e then some (Node.file e.2)
      else if p ∈ dirTargets base e ∧ p ≠ [] ∧ fs p = none then some Node.dir
      else fs p := by
  obtain ⟨fs1, hmk, hw⟩ := processEntry_ok h
  have hmk' : mkdirs fs (initSegs ((joinPath base e.1).dropLast)) = (fs1, none) := hmk
  obtain ⟨hset, hnotdir, hpar⟩ := writeW_ok hw
  rw [hset, setNode_apply]
  simp only [fullOf, dirTargets]
  by_cases hpq : p = normalize (joinPath base e.1)
  · simp [hpq]
  · rw [if_neg hpq, if_neg hpq, mkdirs_ok_apply hmk' p]

end GenStruct

namespace GenStruct

/-- An entry step never modifies an existing file other than at its own
resolved target, whatever the outcome. -/
theorem processEntry_keeps_file_exact {base : Path} {fs : FS} {e : Entry} {p : Path} {c : String}
    (h : fs p = some (Node.file c)) (hne : p ≠ fullOf base e) :
    (processEntry base fs e).1 p = some (Node.file c) := by
  cases hm : makedirs fs (joinPath base e.1).dropLast with
  | mk fs1 r =>
    have hmk1 : fs1 p = some (Node.file c) := by
      have h2 : (makedirs fs (joinPath base e.1).dropLast).1 p = fs p :=
        mkdirs_untouched (by simp [h])
      rw [hm] at h2
      have h2' : fs1 p = fs p := h2
      rw [h2', h]
    have hne' : p ≠ normalize (joinPath base e.1) := hne
    cases r with
    | some err => simpa [processEntry, hm] using hmk1
    | none =>
      simp only [processEntry, hm]
      rw [writeW_untouched hne', hmk1]

/-- An entry step never turns a directory into anything else. -/
theorem processEntry_keeps_dir {base : Path} {fs : FS} {e : Entry} {p : Path}
    (h : fs p = some Node.dir) :
    (processEntry base fs e).1 p = some Node.dir := by
  cases hm : makedirs fs (joinPath base e.1).dropLast with
  | mk fs1 r =>
    have hmk1 : fs1 p = some Node.dir := by
      have h2 : (makedirs fs (joinPath base e.1).dropLast).1 p = fs p :=
        mkdirs_untouched (by simp [h])
      rw [hm] at h2
      have h2' : fs1 p = fs p := h2
      rw [h2', h]
    cases r with
    | some err => simpa [processEntry, hm] using hmk1
    | none =>
      simp only [processEntry, hm]
      exact writeW_keeps_dir hmk1

/-- An entry step keeps every existing file a file. -/
theorem processEntry_file_as_file {base : Path} {fs : FS} {e : Entry} {p : Path} {c : String}
    (h : fs p = some (Node.file c)) :
    ∃ c', (processEntry base fs e).1 p = some (Node.file c') := by
  cases hm : makedirs fs (joinPath base e.1).dropLast with
  | mk fs1 r =>
    have hmk1 : fs1 p = some (Node.file c) := by
      have h2 : (makedirs fs (joinPath base e.1).dropLast).1 p = fs p :=
        mkdirs_untouched (by simp [h])
      rw [hm] at h2
      have h2' : fs1 p = fs p := h2
      rw [h2', h]
    cases r with
    | some err => exact ⟨c, by simpa [processEntry, hm] using hmk1⟩
    | none =>
      simp only [processEntry, hm]
      exact writeW_file_as_file hmk1

/-- An entry step populates an empty position only with a directory on its
own chain or its own file at its resolved target. -/
theorem processEntry_new {base : Path} {fs : FS} {e : Entry} {p : Path}
    (h : fs p = none) :
    (processEntry base fs e).1 p = none ∨
      ((processEntry base fs e).1 p = some Node.dir ∧ p ∈ dirTargets base e) ∨
      ((processEntry base fs e).1 p = some (Node.file e.2) ∧ p = fullOf base e) := by
  cases hm : makedirs fs (joinPath base e.1).dropLast with
  | mk fs1 r =>
    have hnew := @mkdirs_new fs (initSegs ((joinPath base e.1).dropLast)) p h
    have hm' : mkdirs fs (initSegs ((joinPath base e.1).dropLast)) = (fs1, r) := hm
    rw [hm'] at hnew
    have hmem_eq : (initSegs ((joinPath base e.1).dropLast)).map normalize = dirTargets base e := rfl
    cases r with
    | some err =>
      simp only [processEntry, hm]
      rcases hnew with h1 | ⟨h1, h2⟩
      · exact Or.inl h1
      · exact Or.inr (Or.inl ⟨h1, hmem_eq ▸ h2⟩)
    | none =>
      simp only [processEntry, hm]
      rcases hnew with h1 | ⟨h1, h2⟩
      · rcases @writeW_new fs1 (joinPath base e.1) p e.2 h1 with h3 | ⟨h3, h4⟩
        · exact Or.inl h3
        · exact Or.inr (Or.inr ⟨h3, h4⟩)
      · exact Or.inr (Or.inl ⟨writeW_keeps_dir h1, hmem_eq ▸ h2⟩)

/-- Membership on the directory chains of a cons manifest. -/
theorem mem_allDirs_cons {base : Path} {e : Entry} {es : List Entry} {p : Path} :
    p ∈ allDirs base (e :: es) ↔ p ∈ dirTargets base e ∨ p ∈ allDirs base es := by
  simp [allDirs, List.mem_append]

/-- Membership on the resolved paths of a cons manifest. -/
theorem mem_resolvedPaths_cons {base : Path} {e : Entry} {es : List Entry} {p : Path} :
    p ∈ resolvedPaths base (e :: es) ↔ p = fullOf base e ∨ p ∈ resolvedPaths base es := by
  simp [resolvedPaths, List.mem_cons, eq_comm]

/-- A run never turns a directory into anything else, whatever the outcome. -/
theorem runEntries_keeps_dir {base : Path} {l : List Entry} {fs : FS} {p : Path}
    (h : fs p = some Node.dir) :
    (runEntries base l fs).1 p = some Node.dir := by
  induction l generalizing fs with
  | nil => simpa [runEntries]
  | cons e es ih =>
    cases hp : processEntry base fs e with
    | mk fs1 r =>
      have h1 : fs1 p = some Node.dir := by
        have := @processEntry_keeps_dir base fs e p h
        rwa [hp] at this
      cases r with
      | none => simp only [runEntries, hp]; exact ih h1
      | some err => simpa [runEntries, hp] using h1

/-- A run keeps every existing file a file, whatever the outcome. -/
theorem runEntries_file_as_file {base : Path} {l : List Entry} {fs : FS} {p : Path} {c : String}
    (h : fs p = some (Node.file c)) :
    ∃ c', (runEntries base l fs).1 p = some (Node.file c') := by
  induction l generalizing fs c with
  | nil => exact ⟨c, by simpa [runEntries]⟩
  | cons e es ih =>
    cases hp : processEntry base fs e with
    | mk fs1 r =>
      obtain ⟨c1, h1⟩ := @processEntry_file_as_file base fs e p c h
      rw [hp] at h1
      cases r with
      | none => simp only [runEntries, hp]; exact ih h1
      | some err => exact ⟨c1, by simpa [runEntries, hp] using h1⟩

/-- A run never modifies a file that is not a resolved target of one of its
entries, whatever the outcome. -/
theorem runEntries_untouched_file {base : Path} {l : List Entry} {fs : FS} {p : Path} {c : String}
    (h : fs p = some (Node.file c)) (hmem : p ∉ resolvedPaths base l) :
    (runEntries base l fs).1 p = some (Node.file c) := by
  induction l generalizing fs with
  | nil => simpa [runEntries]
  | cons e es ih =>
    have hne : p ≠ fullOf base e := fun he => hmem (mem_resolvedPaths_cons.2 (Or.inl he))
    have hmem2 : p ∉ resolvedPaths base es := fun he => hmem (mem_resolvedPaths_cons.2 (Or.inr he))
    cases hp : processEntry base fs e with
    | mk fs1 r =>
      have h1 : fs1 p = some (Node.file c) := by
        have := @processEntry_keeps_file_exact base fs e p c h hne
        rwa [hp] at this
      cases r with
      | none => simp only [runEntries, hp]; exact ih h1 hmem2
      | some err => simpa [runEntries, hp] using h1

/-- A run populates empty positions only with directories on its entries'
chains or files at its entries' resolved targets, whatever the outcome. -/
theorem runEntries_new {base : Path} {l : List Entry} {fs : FS} {p : Path}
    (h : fs p = none) :
    (runEntries base l fs).1 p = none ∨
      ((runEntries base l fs).1 p = some Node.dir ∧ p ∈ allDirs base l) ∨
      (∃ c, (runEntries base l fs).1 p = some (Node.file c) ∧ p ∈ resolvedPaths base l) := by
  induction l generalizing fs with
  | nil => exact Or.inl (by simpa [runEntries])
  | cons e es ih =>
    cases hp : processEntry base fs e with
    | mk fs1 r =>
      have hstep := @processEntry_new base fs e p h
      rw [hp] at hstep
      cases r with
      | none =>
        simp only [runEntries, hp]
        rcases hstep with h1 | ⟨h1, h2⟩ | ⟨h1, h2⟩
        · rcases ih h1 with h3 | ⟨h3, h4⟩ | ⟨c, h3, h4⟩
          · exact Or.inl h3
          · exact Or.inr (Or.inl ⟨h3, mem_allDirs_cons.2 (Or.inr h4)⟩)
          · exact Or.inr (Or.inr ⟨c, h3, mem_resolvedPaths_cons.2 (Or.inr h4)⟩)
        · exact Or.inr (Or.inl ⟨runEntries_keeps_dir h1, mem_allDirs_cons.2 (Or.inl h2)⟩)
        · obtain ⟨c', h3⟩ := @runEntries_file_as_file base es fs1 p e.2 h1
          exact Or.inr (Or.inr ⟨c', h3, mem_resolvedPaths_cons.2 (Or.inl h2)⟩)
      | some err =>
        simp only [runEntries, hp]
        rcases hstep with h1 | ⟨h1, h2⟩ | ⟨h1, h2⟩
        · exact Or.inl h1
        · exact Or.inr (Or.inl ⟨h1, mem_allDirs_cons.2 (Or.inl h2)⟩)
        · exact Or.inr (Or.inr ⟨e.2, h1, mem_resolvedPaths_cons.2 (Or.inl h2)⟩)

/-- Composition: a run over an appended manifest continues from the state of
a successful first half. -/
theorem runEntries_append_ok {base : Path} {l1 l2 : List Entry} {fs : FS}
    (h : (runEntries base l1 fs).2 = none) :
    runEntries base (l1 ++ l2) fs = runEntries base l2 (runEntries base l1 fs).1 := by
  induction l1 generalizing fs with
  | nil => simp [runEntries]
  | cons e es ih =>
    cases hp : processEntry base fs e with
    | mk fs1 r =>
      cases r with
      | none =>
        simp only [List.cons_append, runEntries, hp]
        exact ih (by simpa [runEntries, hp] using h)
      | some err => simp [runEntries, hp] at h

/-- Composition: a run over an appended manifest stops with a failing first
half and never reaches the second. -/
theorem runEntries_append_fail {base : Path} {l1 l2 : List Entry} {fs : FS}
    (h : (runEntries base l1 fs).2 ≠ none) :
    runEntries base (l1 ++ l2) fs = runEntries base l1 fs := by
  induction l1 generalizing fs with
  | nil => simp [runEntries] at h
  | cons e es ih =>
    cases hp : processEntry base fs e with
    | mk fs1 r =>
      cases r with
      | none =>
        simp only [List.cons_append, runEntries, hp]
        exact ih (by simpa [runEntries, hp] using h)
      | some err => simp [runEntries, hp]

end GenStruct

namespace GenStruct

/-- Unfolding `lastContent` over a cons manifest. -/
theorem lastContent_cons {base : Path} {e : Entry} {es : List Entry} {p : Path} :
    lastContent base (e :: es) p =
      match lastContent base es p with
      | some c => some c
      | none => if fullOf base e = p then some e.2 else none := by
  unfold lastContent
  by_cases he : fullOf base e = p
  · rw [List.filter_cons_of_pos (by simp [he])]
    cases hfe : es.filter (fun x => decide (fullOf base x = p)) with
    | nil => simp [he]
    | cons a as =>
      rw [List.getLast?_cons_cons]
      cases hl : (a :: as).getLast? with
      | none => simp at hl
      | some b => simp
  · rw [List.filter_cons_of_neg (by simp [he])]
    cases hl : (es.filter (fun x => decide (fullOf base x = p))).getLast? with
    | none => simp [he]
    | some b => simp

/-- A position on a successfully processed entry's directory chain cannot
have held a regular file beforehand. -/
theorem dirTargets_not_file {base : Path} {fs fs' : FS} {e : Entry} {p : Path} {c : String}
    (h : processEntry base fs e = (fs', none)) (hmem : p ∈ dirTargets base e)
    (hz : p ≠ []) : fs p ≠ some (Node.file c) := by
  intro hfs
  obtain ⟨fs1, hmk, hw⟩ := processEntry_ok h
  have hmk' : mkdirs fs (initSegs ((joinPath base e.1).dropLast)) = (fs1, none) := hmk
  obtain ⟨q, hq, hnq⟩ := List.mem_map.1 hmem
  exact mkdirs_ok_not_file hmk' q hq c
    (by rw [getNode, if_neg (by rw [hnq]; exact hz), hnq, hfs])

/-- Extensional characterization of a successful run: the final state holds
the file content of the last entry resolving to each path, fresh directories
along the ensured chains, and the initial state elsewhere. -/
theorem runEntries_ok_apply {base : Path} {l : List Entry} {fs fs' : FS}
    (h : runEntries base l fs = (fs', none)) (p : Path) :
    fs' p = finalView base l fs p := by
  induction l generalizing fs with
  | nil =>
    simp only [runEntries, Prod.mk.injEq] at h
    rw [← h.1]
    simp [finalView, lastContent, allDirs]
  | cons e es ih =>
    cases hpr : processEntry base fs e with
    | mk fsA r =>
      cases r with
      | some err => simp [runEntries, hpr] at h
      | none =>
        simp only [runEntries, hpr] at h
        have hstep := processEntry_ok_apply hpr p
        have hih := ih h
        rw [hih]
        simp only [finalView]
        rw [lastContent_cons]
        cases hlc : lastContent base es p with
        | some c => simp [hlc]
        | none =>
          simp only [hlc]
          by_cases hpe : fullOf base e = p
          · have hfsA : fsA p = some (Node.file e.2) := by
              rw [hstep, if_pos hpe.symm]
            simp [hpe, hfsA]
          · have hne : ¬ p = fullOf base e := fun hcon => hpe hcon.symm
            rw [hstep, if_neg hne]
            simp only [if_neg hpe]
            by_cases hd : p ∈ dirTargets base e ∧ p ≠ [] ∧ fs p = none
            · rw [if_pos hd]
              have hmema : p ∈ allDirs base (e :: es) ∧ p ≠ [] ∧ fs p = none :=
                ⟨mem_allDirs_cons.2 (Or.inl hd.1), hd.2.1, hd.2.2⟩
              simp [hmema]
            · rw [if_neg hd]
              by_cases hmem : p ∈ allDirs base es ∧ p ≠ [] ∧ fs p = none
              · rw [if_pos hmem]
                have hmema : p ∈ allDirs base (e :: es) ∧ p ≠ [] ∧ fs p = none :=
                  ⟨mem_allDirs_cons.2 (Or.inr hmem.1), hmem.2.1, hmem.2.2⟩
                rw [if_pos hmema]
              · rw [if_neg hmem]
                have hno : ¬ (p ∈ allDirs base (e :: es) ∧ p ≠ [] ∧ fs p = none) := by
                  intro hcon
                  rcases mem_allDirs_cons.1 hcon.1 with hx | hx
                  · exact hd ⟨hx, hcon.2⟩
                  · exact hmem ⟨hx, hcon.2⟩
                rw [if_neg hno]

/-- After a successful run, every position on an ensured directory chain
holds a directory. -/
theorem runEntries_ok_dirs {base : Path} {l : List Entry} {fs fs' : FS}
    (h : runEntries base l fs = (fs', none)) :
    ∀ p ∈ allDirs base l, p ≠ [] → fs' p = some Node.dir := by
  induction l generalizing fs with
  | nil => intro p hp; simp [allDirs] at hp
  | cons e es ih =>
    intro p hp hz
    cases hpr : processEntry base fs e with
    | mk fsA r =>
      cases r with
      | some err => simp [runEntries, hpr] at h
      | none =>
        simp only [runEntries, hpr] at h
        rcases mem_allDirs_cons.1 hp with hmem | hmem
        · have hfsA : fsA p = some Node.dir := by
            rw [processEntry_ok_apply hpr p]
            have hne : p ≠ fullOf base e :=
              fun hcon => (processEntry_ok_full hpr).1 (hcon ▸ hmem)
            rw [if_neg hne]
            by_cases hn : fs p = none
            · rw [if_pos ⟨hmem, hz, hn⟩]
            · rw [if_neg (fun hcon => hn hcon.2.2)]
              cases hfs : fs p with
              | none => exact absurd hfs hn
              | some n =>
                cases n with
                | dir => rfl
                | file c => exact absurd hfs (dirTargets_not_file hpr hmem hz)
          have hkeep := @runEntries_keeps_dir base es fsA p hfsA
          rw [h] at hkeep
          exact hkeep
        · exact ih h p hmem hz

/-- After a successful run, no entry's resolved path lies on an ensured
directory chain: file targets and directory targets are disjoint. -/
theorem runEntries_ok_disjoint {base : Path} {l : List Entry} {fs fs' : FS}
    (h : runEntries base l fs = (fs', none)) {p : Path}
    (hp : p ∈ allDirs base l) (hz : p ≠ []) : lastContent base l p = none := by
  cases hlc : lastContent base l p with
  | none => rfl
  | some c =>
    have h1 := runEntries_ok_apply h p
    simp only [finalView, hlc] at h1
    rw [runEntries_ok_dirs h p hp hz] at h1
    simp at h1

/-- A nonempty path is its own longest initial segment. -/
theorem self_mem_initSegs {p : Path} (h : p ≠ []) : p ∈ initSegs p := by
  unfold initSegs
  refine List.mem_map.2 ⟨p.length - 1, List.mem_range.2 ?_, ?_⟩
  · have : 0 < p.length := List.length_pos.2 h
    omega
  · have h1 : 1 ≤ p.length := List.length_pos.2 h
    rw [Nat.sub_add_cancel h1, List.take_length]

end GenStruct

namespace GenStruct

/-- Replaying a successful run from any state that agrees with its final
state away from the written files, and holds some regular file at each of
them, succeeds and merely rewrites those files in place. -/
theorem runEntries_replay {base : Path} {l : List Entry} {fs fs' : FS}
    (h : runEntries base l fs = (fs', none)) :
    ∀ g : FS,
      (∀ p, lastContent base l p = none → g p = fs' p) →
      (∀ p c, lastContent base l p = some c → ∃ c', g p = some (Node.file c')) →
      runEntries base l g = (overwriteFiles base l g, none) := by
  induction l generalizing fs fs' with
  | nil =>
    intro g hag1 hag2
    have hov : overwriteFiles base [] g = g := by
      funext p
      simp [overwriteFiles, lastContent]
    rw [hov]
    rfl
  | cons e es ih =>
    intro g hag1 hag2
    cases hpr : processEntry base fs e with
    | mk fsA r =>
      cases r with
      | some err => simp [runEntries, hpr] at h
      | none =>
        have hes : runEntries base es fsA = (fs', none) := by
          simpa [runEntries, hpr] using h
        have hwhole : runEntries base (e :: es) fs = (fs', none) := h
        have hgdirs : ∀ q ∈ initSegs ((joinPath base e.1).dropLast),
            getNode g q = some Node.dir := by
          intro q hq
          by_cases hzq : normalize q = []
          · rw [getNode, if_pos hzq]
          · rw [getNode, if_neg hzq]
            have hmemd : normalize q ∈ dirTargets base e := List.mem_map_of_mem normalize hq
            have hmema : normalize q ∈ allDirs base (e :: es) :=
              mem_allDirs_cons.2 (Or.inl hmemd)
            have hlcq := runEntries_ok_disjoint hwhole hmema hzq
            rw [hag1 _ hlcq]
            exact runEntries_ok_dirs hwhole _ hmema hzq
        have hmkg : makedirs g (joinPath base e.1).dropLast = (g, none) := mkdirs_noop hgdirs
        have hfull := processEntry_ok_full hpr
        obtain ⟨c0, hlc0⟩ : ∃ c0, lastContent base (e :: es) (fullOf base e) = some c0 := by
          rw [lastContent_cons]
          cases hlc : lastContent base es (fullOf base e) with
          | some c => exact ⟨c, rfl⟩
          | none => exact ⟨e.2, by simp⟩
        obtain ⟨cg, hgfull⟩ := hag2 _ _ hlc0
        have hzfull : ¬ normalize (joinPath base e.1) = [] := hfull.2
        have hgnotdir : getNode g (joinPath base e.1) ≠ some Node.dir := by
          rw [getNode, if_neg hzfull]
          have hgfull' : g (normalize (joinPath base e.1)) = some (Node.file cg) := hgfull
          rw [hgfull']
          simp
        have hgpar : getNode g (joinPath base e.1).dropLast = some Node.dir := by
          by_cases hzp : normalize ((joinPath base e.1).dropLast) = []
          · rw [getNode, if_pos hzp]
          · have hple : (joinPath base e.1).dropLast ≠ [] := by
              intro hnil
              rw [hnil] at hzp
              exact hzp rfl
            exact hgdirs _ (self_mem_initSegs hple)
        have hwg : writeW g (joinPath base e.1) e.2 =
            (setNode g (joinPath base e.1) (Node.file e.2), none) := by
          cases hgn : getNode g (joinPath base e.1) with
          | none => simp [writeW, hgn, hgpar]
          | some n =>
            cases n with
            | dir => exact absurd hgn hgnotdir
            | file c => simp [writeW, hgn, hgpar]
        have hpg : processEntry base g e =
            (setNode g (joinPath base e.1) (Node.file e.2), none) := by
          simp [processEntry, hmkg, hwg]
        set gA := setNode g (joinPath base e.1) (Node.file e.2) with hgA
        have hag1' : ∀ p, lastContent base es p = none → gA p = fs' p := by
          intro p hlcp
          by_cases hpe : p = normalize (joinPath base e.1)
          · have hgAp : gA p = some (Node.file e.2) := by
              rw [hgA, setNode_apply, if_pos hpe]
            rw [hgAp]
            have hfe : fullOf base e = p := hpe.symm
            have hl2 : lastContent base (e :: es) p = some e.2 := by
              rw [lastContent_cons]
              simp [hlcp, hfe]
            have hv := runEntries_ok_apply hwhole p
            simp only [finalView, hl2] at hv
            rw [hv]
          · have hgAp : gA p = g p := by rw [hgA, setNode_apply, if_neg hpe]
            rw [hgAp]
            apply hag1
            rw [lastContent_cons]
            have hfe : ¬ fullOf base e = p := fun hcon => hpe hcon.symm
            simp [hlcp, hfe]
        have hag2' : ∀ p c, lastContent base es p = some c →
            ∃ c', gA p = some (Node.file c') := by
          intro p c hlcp
          by_cases hpe : p = normalize (joinPath base e.1)
          · exact ⟨e.2, by rw [hgA, setNode_apply, if_pos hpe]⟩
          · have hgAp : gA p = g p := by rw [hgA, setNode_apply, if_neg hpe]
            rw [hgAp]
            apply hag2 p c
            rw [lastContent_cons]
            simp [hlcp]
        have hrun := ih hes gA hag1' hag2'
        have hfinal : overwriteFiles base es gA = overwriteFiles base (e :: es) g := by
          funext p
          simp only [overwriteFiles]
          rw [lastContent_cons]
          cases hlc : lastContent base es p with
          | some c => simp
          | none =>
            by_cases hfe : fullOf base e = p
            · have hgAp : gA p = some (Node.file e.2) := by
                rw [hgA, setNode_apply,
                  if_pos (show p = normalize (joinPath base e.1) from hfe.symm)]
              simp [hfe, hgAp]
            · have hgAp : gA p = g p := by
                rw [hgA, setNode_apply,
                  if_neg (show ¬ p = normalize (joinPath base e.1) from
                    fun hcon => hfe hcon.symm)]
              simp [hfe, hgAp]
        rw [← hfinal]
        simp only [runEntries, hpg]
        exact hrun

end GenStruct

namespace GenStruct

/-- A successful run is idempotent: rerunning the same manifest from its
final state succeeds and leaves the state unchanged. -/
theorem runEntries_idem {base : Path} {l : List Entry} {fs fs' : FS}
    (h : runEntries base l fs = (fs', none)) :
    runEntries base l fs' = (fs', none) := by
  have hag1 : ∀ p, lastContent base l p = none → fs' p = fs' p := fun _ _ => rfl
  have hag2 : ∀ p c, lastContent base l p = some c →
      ∃ c', fs' p = some (Node.file c') := by
    intro p c hlc
    have hv := runEntries_ok_apply h p
    simp only [finalView, hlc] at hv
    exact ⟨c, hv⟩
  have hrun := runEntries_replay h fs' hag1 hag2
  rw [hrun]
  congr 1
  funext p
  simp only [overwriteFiles]
  cases hlc : lastContent base l p with
  | none => rfl
  | some c =>
    have hv := runEntries_ok_apply h p
    simp only [finalView, hlc] at hv
    exact hv.symm

/-- When resolved paths are pairwise distinct, filtering the manifest for a
member's resolved path yields exactly that member. -/
theorem filter_resolved_eq_single {base : Path} {l : List Entry} {e : Entry}
    (hmem : e ∈ l) (hnd : (l.map (fullOf base)).Nodup) :
    l.filter (fun x => fullOf base x = fullOf base e) = [e] := by
  induction l with
  | nil => cases hmem
  | cons a as ih =>
    rw [List.map_cons, List.nodup_cons] at hnd
    rcases List.mem_cons.1 hmem with rfl | hmem'
    · rw [List.filter_cons_of_pos (by simp)]
      have hfil : as.filter (fun x => decide (fullOf base x = fullOf base e)) = [] := by
        rw [List.filter_eq_nil_iff]
        intro x hx
        simp only [decide_eq_true_eq]
        intro hcon
        exact hnd.1 (hcon ▸ List.mem_map_of_mem (fullOf base) hx)
      rw [hfil]
    · have hne : ¬ (fullOf base a = fullOf base e) := by
        intro hcon
        exact hnd.1 (hcon ▸ List.mem_map_of_mem (fullOf base) hmem')
      rw [List.filter_cons_of_neg (by simpa using hne)]
      exact ih hmem' hnd.2

/-- With pairwise distinct resolved paths, the last content at a member's
resolved path is that member's content. -/
theorem lastContent_of_mem_nodup {base : Path} {l : List Entry} {e : Entry}
    (hmem : e ∈ l) (hnd : (resolvedPaths base l).Nodup) :
    lastContent base l (fullOf base e) = some e.2 := by
  unfold lastContent
  rw [filter_resolved_eq_single hmem (by simpa [resolvedPaths] using hnd)]
  simp

/-- In a successful run, no processed entry resolves to the virtual root. -/
theorem runEntries_ok_full_ne_nil {base : Path} {l : List Entry} {fs fs' : FS}
    (h : runEntries base l fs = (fs', none)) {e : Entry} (hmem : e ∈ l) :
    fullOf base e ≠ [] := by
  obtain ⟨l1, l2, rfl⟩ := List.append_of_mem hmem
  have hall : (runEntries base (l1 ++ e :: l2) fs).2 = none := by rw [h]
  have h1 : (runEntries base l1 fs).2 = none := by
    by_contra hcon
    rw [runEntries_append_fail hcon] at hall
    exact hcon hall
  have hcomp := @runEntries_append_ok base l1 (e :: l2) fs h1
  rw [hcomp] at h
  cases hpr : processEntry base (runEntries base l1 fs).1 e with
  | mk fsA r =>
    cases r with
    | some err => simp [runEntries, hpr] at h
    | none => exact (processEntry_ok_full hpr).2

/-- Completeness core: after a successful run with pairwise distinct
resolved paths, every entry's file is on disk with its exact content. -/
theorem runEntries_ok_complete {base : Path} {l : List Entry} {fs fs' : FS}
    (h : runEntries base l fs = (fs', none)) (hnd : (resolvedPaths base l).Nodup)
    {e : Entry} (hmem : e ∈ l) :
    getNode fs' (joinPath base e.1) = some (Node.file e.2) := by
  have hlc := lastContent_of_mem_nodup hmem hnd
  have hv := runEntries_ok_apply h (fullOf base e)
  simp only [finalView, hlc] at hv
  have hz : ¬ normalize (joinPath base e.1) = [] := runEntries_ok_full_ne_nil h hmem
  rw [getNode, if_neg hz]
  exact hv

end GenStruct

namespace GenStruct

/-- With pairwise distinct resolved paths, at most one entry resolves to any
given path. -/
theorem length_filter_resolved_le_one {base : Path} {l : List Entry} {p : Path}
    (hnd : (l.map (fullOf base)).Nodup) :
    (l.filter (fun x => fullOf base x = p)).length ≤ 1 := by
  induction l with
  | nil => simp
  | cons a as ih =>
    rw [List.map_cons, List.nodup_cons] at hnd
    by_cases ha : fullOf base a = p
    · rw [List.filter_cons_of_pos (by simpa using ha)]
      have hfil : as.filter (fun x => decide (fullOf base x = p)) = [] := by
        rw [List.filter_eq_nil_iff]
        intro x hx
        simp only [decide_eq_true_eq]
        intro hcon
        exact hnd.1 ((hcon.trans ha.symm) ▸ List.mem_map_of_mem (fullOf base) hx)
      simp [hfil]
    · rw [List.filter_cons_of_neg (by simpa using ha)]
      exact Nat.le_trans (ih hnd.2) (Nat.le_refl 1)

/-- `lastContent` is permutation invariant once resolved paths are pairwise
distinct. -/
theorem lastContent_perm {base : Path} {l1 l2 : List Entry} {p : Path}
    (hperm : List.Perm l1 l2) (hnd : (l1.map (fullOf base)).Nodup) :
    lastContent base l1 p = lastContent base l2 p := by
  unfold lastContent
  have hpf : List.Perm (l1.filter (fun x => fullOf base x = p))
      (l2.filter (fun x => fullOf base x = p)) := hperm.filter _
  have hlen := @length_filter_resolved_le_one base l1 p hnd
  have heq : l1.filter (fun x => fullOf base x = p) =
      l2.filter (fun x => fullOf base x = p) := by
    cases hf1 : l1.filter (fun x => decide (fullOf base x = p)) with
    | nil =>
      rw [hf1] at hpf
      exact (List.Perm.eq_nil hpf.symm).symm
    | cons a as =>
      rw [hf1] at hpf hlen
      have has : as = [] := by
        cases as with
        | nil => rfl
        | cons b bs => simp at hlen
      subst has
      exact (List.perm_singleton.1 hpf.symm).symm
  rw [heq]

/-- Membership of the directory positions of a manifest. -/
theorem mem_allDirs_iff {base : Path} {l : List Entry} {p : Path} :
    p ∈ allDirs base l ↔ ∃ e, e ∈ l ∧ p ∈ dirTargets base e := by
  induction l with
  | nil => simp [allDirs]
  | cons a as ih =>
    rw [mem_allDirs_cons, ih]
    constructor
    · rintro (h | ⟨e, he, hp⟩)
      · exact ⟨a, List.mem_cons_self a as, h⟩
      · exact ⟨e, List.mem_cons_of_mem a he, hp⟩
    · rintro ⟨e, he, hp⟩
      rcases List.mem_cons.1 he with rfl | he'
      · exact Or.inl hp
      · exact Or.inr ⟨e, he', hp⟩

/-- Two successful runs over the same entries in different orders reach the
same final state, provided the resolved paths are pairwise distinct. -/
theorem runEntries_perm_eq {base : Path} {l1 l2 : List Entry} {fs t1 t2 : FS}
    (hperm : List.Perm l1 l2) (hnd : (resolvedPaths base l1).Nodup)
    (h1 : runEntries base l1 fs = (t1, none))
    (h2 : runEntries base l2 fs = (t2, none)) :
    t1 = t2 := by
  funext p
  rw [runEntries_ok_apply h1 p, runEntries_ok_apply h2 p]
  simp only [finalView]
  have hlc : lastContent base l1 p = lastContent base l2 p :=
    lastContent_perm hperm (by simpa [resolvedPaths] using hnd)
  rw [← hlc]
  cases hl : lastContent base l1 p with
  | some c => rfl
  | none =>
    have hmemiff : (p ∈ allDirs base l1) ↔ (p ∈ allDirs base l2) := by
      rw [mem_allDirs_iff, mem_allDirs_iff]
      constructor
      · rintro ⟨e, he, hp⟩
        exact ⟨e, hperm.mem_iff.1 he, hp⟩
      · rintro ⟨e, he, hp⟩
        exact ⟨e, hperm.mem_iff.2 he, hp⟩
    by_cases hm : p ∈ allDirs base l1 ∧ p ≠ [] ∧ fs p = none
    · rw [if_pos hm, if_pos ⟨hmemiff.1 hm.1, hm.2⟩]
    · rw [if_neg hm, if_neg (fun hcon => hm ⟨hmemiff.2 hcon.1, hcon.2⟩)]

end GenStruct

namespace GenStruct

/-- Item assignment keeps dict keys pairwise distinct. -/
theorem dictInsert_keys_nodup {d : List Entry} {k v : String}
    (h : (d.map Prod.fst).Nodup) : ((dictInsert d k v).map Prod.fst).Nodup := by
  unfold dictInsert
  by_cases hmem : (d.any fun e => decide (e.1 = k)) = true
  · rw [if_pos hmem]
    have hkeys : (d.map (fun e => if e.1 = k then (k, v) else e)).map Prod.fst
        = d.map Prod.fst := by
      rw [List.map_map]
      apply List.map_congr_left
      intro e he
      by_cases hek : e.1 = k
      · simp [hek]
      · simp [hek]
    rw [hkeys]
    exact h
  · rw [if_neg hmem, List.map_append]
    refine List.Nodup.append h (by simp) ?_
    intro x hx1 hx2
    simp only [List.map_cons, List.map_nil, List.mem_singleton] at hx2
    subst hx2
    obtain ⟨e, he, hek⟩ := List.mem_map.1 hx1
    simp only [List.any_eq_true, decide_eq_true_eq] at hmem
    exact hmem ⟨e, he, hek⟩

/-- Keys of a Python dict are pairwise distinct, whatever the literal. -/
theorem dictOfList_keys_nodup (l : List Entry) :
    ((dictOfList l).map Prod.fst).Nodup := by
  suffices h : ∀ d : List Entry, (d.map Prod.fst).Nodup →
      ((List.foldl (fun d e => dictInsert d e.1 e.2) d l).map Prod.fst).Nodup by
    exact h [] (by simp)
  induction l with
  | nil => intro d hd; simpa using hd
  | cons a as ih =>
    intro d hd
    rw [List.foldl_cons]
    exact ih _ (dictInsert_keys_nodup hd)

/-- Lookup on a cons dict list. -/
theorem dictLookup_cons (x : Entry) (t : List Entry) (k : String) :
    dictLookup (x :: t) k = if x.1 = k then some x.2 else dictLookup t k := by
  by_cases hx : x.1 = k
  · simp [dictLookup, hx]
  · simp [dictLookup, hx]

/-- Lookup after in-place replacement of the value at a key. -/
theorem dictLookup_map_replace (d : List Entry) (k' v k : String) :
    dictLookup (d.map (fun e => if e.1 = k' then (k', v) else e)) k =
      if k = k' then Option.map (fun _ => v) (dictLookup d k') else dictLookup d k := by
  induction d with
  | nil => by_cases hkk : k = k' <;> simp [dictLookup, hkk]
  | cons a as ih =>
    simp only [List.map_cons, dictLookup_cons]
    by_cases hak : a.1 = k'
    · by_cases hkk : k = k'
      · subst hkk
        simp [hak]
      · have hk2 : ¬ (k' = k) := fun hcon => hkk hcon.symm
        simp [hak, hkk, hk2, ih]
    · by_cases hkk : k = k'
      · subst hkk
        simp [hak, ih]
      · by_cases hka : a.1 = k
        · simp [hak, hkk, hka]
        · simp [hak, hkk, hka, ih]

/-- Python item assignment `d[k'] = v`: the new value is found at `k'`, all
other keys are unaffected. -/
theorem dictLookup_insert (d : List Entry) (k' v k : String) :
    dictLookup (dictInsert d k' v) k = if k = k' then some v else dictLookup d k := by
  unfold dictInsert
  by_cases hmem : (d.any fun e => decide (e.1 = k')) = true
  · rw [if_pos hmem, dictLookup_map_replace]
    by_cases hkk : k = k'
    · rw [if_pos hkk, if_pos hkk]
      simp only [List.any_eq_true, decide_eq_true_eq] at hmem
      obtain ⟨e, he, hek⟩ := hmem
      cases hfind : d.find? (fun e => decide (e.1 = k')) with
      | none =>
        rw [List.find?_eq_none] at hfind
        exact absurd (by simpa using hek) (hfind e he)
      | some a => simp [dictLookup, hfind]
    · rw [if_neg hkk, if_neg hkk]
  · rw [if_neg hmem]
    unfold dictLookup
    rw [List.find?_append]
    by_cases hkk : k = k'
    · subst hkk
      have hfind : d.find? (fun e => decide (e.1 = k)) = none := by
        rw [List.find?_eq_none]
        intro x hx
        simp only [decide_eq_true_eq]
        intro hcon
        simp only [List.any_eq_true, decide_eq_true_eq] at hmem
        exact hmem ⟨x, hx, hcon⟩
      simp [hfind]
    · have hne : ¬ (k' = k) := fun hcon => hkk hcon.symm
      simp [hkk, hne]

/-- Looking a key up in a Python dict built from a literal list yields the
value of the last pair of the literal with that key. -/
theorem dictOfList_lookup_last (l : List Entry) (k : String) :
    dictLookup (dictOfList l) k =
      ((l.filter (fun e => e.1 = k)).getLast?).map (fun e => e.2) := by
  suffices h : ∀ d : List Entry,
      dictLookup (List.foldl (fun d e => dictInsert d e.1 e.2) d l) k =
        match ((l.filter (fun e => e.1 = k)).getLast?).map (fun e => e.2) with
        | some c => some c
        | none => dictLookup d k by
    have h2 := h []
    cases hm : ((l.filter (fun e => e.1 = k)).getLast?).map (fun e => e.2) with
    | none => rw [hm] at h2; simpa [dictLookup] using h2
    | some c => rw [hm] at h2; simpa using h2
  induction l with
  | nil => intro d; rfl
  | cons a as ih =>
    intro d
    rw [List.foldl_cons]
    rw [ih (dictInsert d a.1 a.2)]
    by_cases hak : a.1 = k
    · rw [List.filter_cons_of_pos (by simp [hak])]
      cases hfe : as.filter (fun e => decide (e.1 = k)) with
      | nil =>
        simp only [List.getLast?_singleton]
        rw [dictLookup_insert]
        simp [hak.symm]
      | cons b bs =>
        rw [List.getLast?_cons_cons]
        cases hl : (b :: bs).getLast? with
        | none => simp at hl
        | some c => simp
    · rw [List.filter_cons_of_neg (by simp [hak])]
      cases hl : (as.filter (fun e => decide (e.1 = k))).getLast? with
      | none =>
        rw [dictLookup_insert]
        have hka : ¬ k = a.1 := fun hcon => hak hcon.symm
        simp [hka]
      | some c => simp

end GenStruct

namespace GenStruct

/-- A failing entry step leaves every existing regular file untouched. -/
theorem processEntry_fail_keeps_file {base : Path} {fs fs1 : FS} {e : Entry} {err : FsError}
    {p : Path} {c : String} (h : processEntry base fs e = (fs1, some err))
    (hfile : fs p = some (Node.file c)) : fs1 p = some (Node.file c) := by
  cases hm : makedirs fs (joinPath base e.1).dropLast with
  | mk fsm r =>
    have hkeep : fsm p = some (Node.file c) := by
      have h2 : (makedirs fs (joinPath base e.1).dropLast).1 p = fs p :=
        mkdirs_untouched (by simp [hfile])
      rw [hm] at h2
      have h2' : fsm p = fs p := h2
      rw [h2', hfile]
    cases r with
    | some err2 =>
      simp only [processEntry, hm, Prod.mk.injEq] at h
      rw [← h.1]
      exact hkeep
    | none =>
      simp only [processEntry, hm] at h
      rw [writeW_fail h]
      exact hkeep

/-- C1 counterexample: the manifest [("a.txt","x"), ("./a.txt","y")] has
pairwise distinct dict keys and materializes without error against base
"out", yet the entry ("a.txt","x") does not have its content on disk: both
entries resolve to the same absolute path and the later write wins. -/
theorem C1_counterexample :
    (("a.txt", "x") ∈ ([("a.txt", "x"), ("./a.txt", "y")] : List Entry)) ∧
    (materialize [("a.txt", "x"), ("./a.txt", "y")] ["out"] emptyFS).2 = none ∧
    getNode (materialize [("a.txt", "x"), ("./a.txt", "y")] ["out"] emptyFS).1
      (joinPath ["out"] "a.txt") = some (Node.file "y") ∧
    getNode (materialize [("a.txt", "x"), ("./a.txt", "y")] ["out"] emptyFS).1
      (joinPath ["out"] "a.txt") ≠ some (Node.file "x") := by
  decide

/-- C1 (amended): completeness — for every manifest whose entries resolve to
pairwise distinct absolute paths, after a run of materialize completes
without error, each entry's file exists on disk at the base directory joined
with its relative path, with exactly the entry's content. -/
theorem C1_completeness (m : List Entry) (b : Path) (fs : FS)
    (hok : (materialize m b fs).2 = none)
    (hnd : (resolvedPaths b m).Nodup) :
    ∀ e ∈ m, getNode (materialize m b fs).1 (joinPath b e.1) = some (Node.file e.2) := by
  intro e hmem
  have hpair : materialize m b fs = ((materialize m b fs).1, none) := by rw [← hok]
  exact runEntries_ok_complete hpair hnd hmem

/-- C1 witness: the spec's example manifest materialized into ./out. -/
theorem C1_witness :
    (materialize [("cfg/env.yml", "DEBUG=true\n"), ("cfg/sub/.keep", "")] ["out"] emptyFS).2
      = none ∧
    (resolvedPaths ["out"] [("cfg/env.yml", "DEBUG=true\n"), ("cfg/sub/.keep", "")]).Nodup ∧
    getNode (materialize [("cfg/env.yml", "DEBUG=true\n"), ("cfg/sub/.keep", "")]
        ["out"] emptyFS).1 (joinPath ["out"] "cfg/env.yml")
      = some (Node.file "DEBUG=true\n") :=
  ⟨by decide, by decide,
    C1_completeness [("cfg/env.yml", "DEBUG=true\n"), ("cfg/sub/.keep", "")] ["out"] emptyFS
      (by decide) (by decide) ("cfg/env.yml", "DEBUG=true\n") (by decide)⟩

/-- C2 counterexample: with manifest [("a","x"), ("a/b","y")] the first run
fails (the freshly written file "a" blocks creating directory "a"), and a
second run over the first run's final tree raises an error again rather than
none, against the claim that the second run raises no error. -/
theorem C2_counterexample :
    (materialize [("a", "x"), ("a/b", "y")] ["out"]
      (materialize [("a", "x"), ("a/b", "y")] ["out"] emptyFS).1).2 ≠ none := by
  decide

/-- C2 (amended): idempotence on success — if a run of materialize completes
without error, running it again from the resulting tree raises no error and
leaves the tree identical. -/
theorem C2_idempotent (m : List Entry) (b : Path) (fs : FS)
    (hok : (materialize m b fs).2 = none) :
    materialize m b (materialize m b fs).1 = ((materialize m b fs).1, none) := by
  have hpair : materialize m b fs = ((materialize m b fs).1, none) := by rw [← hok]
  exact runEntries_idem hpair

/-- C2 witness: rerunning the spec's example manifest. -/
theorem C2_witness :
    (materialize [("cfg/env.yml", "DEBUG=true\n"), ("cfg/sub/.keep", "")] ["o2"] emptyFS).2
      = none ∧
    materialize [("cfg/env.yml", "DEBUG=true\n"), ("cfg/sub/.keep", "")] ["o2"]
        (materialize [("cfg/env.yml", "DEBUG=true\n"), ("cfg/sub/.keep", "")] ["o2"] emptyFS).1
      = ((materialize [("cfg/env.yml", "DEBUG=true\n"), ("cfg/sub/.keep", "")]
          ["o2"] emptyFS).1, none) :=
  ⟨by decide,
    C2_idempotent [("cfg/env.yml", "DEBUG=true\n"), ("cfg/sub/.keep", "")] ["o2"] emptyFS
      (by decide)⟩

/-- C3 counterexample: a manifest holding the traversal entry
("../escape.txt","boom") and a valid entry runs to completion with no error
of any kind, writes escape.txt outside the base directory, and also writes
the valid entry — against the claim that an InvalidPathError is raised
before any filesystem write. -/
theorem C3_counterexample :
    (materialize [("../escape.txt", "boom"), ("ok.txt", "fine")] ["base"] emptyFS).2 = none ∧
    getNode (materialize [("../escape.txt", "boom"), ("ok.txt", "fine")] ["base"] emptyFS).1
      ["escape.txt"] = some (Node.file "boom") ∧
    getNode (materialize [("../escape.txt", "boom"), ("ok.txt", "fine")] ["base"] emptyFS).1
      ["base", "ok.txt"] = some (Node.file "fine") := by
  decide

/-- C3 (amended): create_structure performs no path validation — an entry
whose path starts with ".." is joined to the base, resolves outside the base
directory, and on any successful run its file is written there. -/
theorem C3_no_validation (fs : FS) (c : String)
    (hok : (materialize [("../escape.txt", c)] ["base"] fs).2 = none) :
    getNode (materialize [("../escape.txt", c)] ["base"] fs).1 ["escape.txt"]
      = some (Node.file c) ∧
    normalize (joinPath ["base"] "../escape.txt") = ["escape.txt"] := by
  constructor
  · have hpair : materialize [("../escape.txt", c)] ["base"] fs
        = ((materialize [("../escape.txt", c)] ["base"] fs).1, none) := by rw [← hok]
    have hlc : lastContent ["base"] [("../escape.txt", c)] ["escape.txt"] = some c := rfl
    have hv := runEntries_ok_apply hpair ["escape.txt"]
    simp only [finalView, hlc] at hv
    rw [getNode, if_neg (by decide)]
    exact hv
  · decide

/-- C3 witness: the amended statement at a concrete state and content. -/
theorem C3_witness :
    (materialize [("../escape.txt", "boom")] ["base"] emptyFS).2 = none ∧
    getNode (materialize [("../escape.txt", "boom")] ["base"] emptyFS).1 ["escape.txt"]
      = some (Node.file "boom") :=
  ⟨by decide, (C3_no_validation emptyFS "boom" (by decide)).1⟩

/-- C4 counterexample: the value create_structure returns carries no
created-versus-overwritten information: two initial states on which the
spec's report differs (the file is fresh in one and pre-existing in the
other) produce the same return value. -/
theorem C4_counterexample :
    materialize_return [("a.txt", "x")] ["out"] emptyFS =
      materialize_return [("a.txt", "x")] ["out"]
        (fun q => if q = ["out"] then some Node.dir
          else if q = ["out", "a.txt"] then some (Node.file "old") else none) ∧
    materializeReportSpec [("a.txt", "x")] ["out"] emptyFS ≠
      materializeReportSpec [("a.txt", "x")] ["out"]
        (fun q => if q = ["out"] then some Node.dir
          else if q = ["out", "a.txt"] then some (Node.file "old") else none) := by
  decide

/-- C4 (amended): create_structure returns None on success — modelled as
some () — never a MaterializationReport; the return value is identical
across any two successful runs, so it records nothing about which entries
were newly created and which were overwritten. -/
theorem C4_return_none (m : List Entry) (b : Path) (fs fs2 : FS)
    (h1 : (materialize m b fs).2 = none) (h2 : (materialize m b fs2).2 = none) :
    materialize_return m b fs = some () ∧
      materialize_return m b fs = materialize_return m b fs2 := by
  unfold materialize_return
  rw [h1, h2]
  exact ⟨rfl, rfl⟩

/-- C4 witness: the amended statement across an empty and a pre-populated
initial state. -/
theorem C4_witness :
    (materialize [("a.txt", "x")] ["out"] emptyFS).2 = none ∧
    (materialize [("a.txt", "x")] ["out"]
      (fun q => if q = ["out"] then some Node.dir
        else if q = ["out", "a.txt"] then some (Node.file "old") else none)).2 = none ∧
    materialize_return [("a.txt", "x")] ["out"] emptyFS = some () :=
  ⟨by decide, by decide,
    (C4_return_none [("a.txt", "x")] ["out"] emptyFS
      (fun q => if q = ["out"] then some Node.dir
        else if q = ["out", "a.txt"] then some (Node.file "old") else none)
      (by decide) (by decide)).1⟩

/-- C5: per-entry write protocol — a successful entry step decomposes into a
makedirs pass after which every directory segment of the resolved parent
chain exists as a directory, followed by the file write; makedirs is a no-op
(not an error) on any state whose chain already exists; and the write
itself, whenever it succeeds on any state, leaves the resolved target
holding exactly the entry's content, creating or fully overwriting it with
no append or partial-write semantics. -/
theorem C5_write_protocol (b : Path) (fs : FS) (e : Entry)
    (h : (processEntry b fs e).2 = none) :
    (∃ fsm, makedirs fs (joinPath b e.1).dropLast = (fsm, none)
      ∧ (∀ q ∈ initSegs (joinPath b e.1).dropLast, getNode fsm q = some Node.dir)
      ∧ writeW fsm (joinPath b e.1) e.2 = ((processEntry b fs e).1, none)
      ∧ (processEntry b fs e).1 (fullOf b e) = some (Node.file e.2))
    ∧ (∀ g : FS, (∀ q ∈ initSegs (joinPath b e.1).dropLast, getNode g q = some Node.dir) →
        makedirs g (joinPath b e.1).dropLast = (g, none))
    ∧ (∀ g : FS, (writeW g (joinPath b e.1) e.2).2 = none →
        (writeW g (joinPath b e.1) e.2).1 (fullOf b e) = some (Node.file e.2)) := by
  have hpair : processEntry b fs e = ((processEntry b fs e).1, none) := by rw [← h]
  obtain ⟨fsm, hmk, hw⟩ := processEntry_ok hpair
  have hmk' : mkdirs fs (initSegs ((joinPath b e.1).dropLast)) = (fsm, none) := hmk
  have hfe : fullOf b e = normalize (joinPath b e.1) := rfl
  refine ⟨⟨fsm, hmk, mkdirs_ok_dirs hmk', hw, ?_⟩, ?_, ?_⟩
  · obtain ⟨hset, -, -⟩ := writeW_ok hw
    rw [hset, setNode_apply, if_pos hfe]
  · intro g hg
    exact mkdirs_noop hg
  · intro g hwg
    have hwpair : writeW g (joinPath b e.1) e.2
        = ((writeW g (joinPath b e.1) e.2).1, none) := by rw [← hwg]
    obtain ⟨hset, -, -⟩ := writeW_ok hwpair
    rw [hset, setNode_apply, if_pos hfe]

/-- C5 witness: one entry with a two-level parent chain on the empty state. -/
theorem C5_witness :
    (processEntry ["out"] emptyFS ("a/b/c.txt", "hello")).2 = none ∧
    (processEntry ["out"] emptyFS ("a/b/c.txt", "hello")).1
      (fullOf ["out"] ("a/b/c.txt", "hello")) = some (Node.file "hello") :=
  ⟨by decide,
    ((C5_write_protocol ["out"] emptyFS ("a/b/c.txt", "hello")
      (by decide)).1.choose_spec.2.2.2)⟩

/-- C6 counterexample: two manifests with the same set of entries in
different orders, both running without error on the same initial state,
produce different trees: both entries resolve to out/a.txt and the last
write wins, so the order decides the final content. -/
theorem C6_counterexample :
    List.Perm ([("a.txt", "x"), ("./a.txt", "y")] : List Entry)
      [("./a.txt", "y"), ("a.txt", "x")] ∧
    (materialize [("a.txt", "x"), ("./a.txt", "y")] ["out"] emptyFS).2 = none ∧
    (materialize [("./a.txt", "y"), ("a.txt", "x")] ["out"] emptyFS).2 = none ∧
    getNode (materialize [("a.txt", "x"), ("./a.txt", "y")] ["out"] emptyFS).1
      ["out", "a.txt"] = some (Node.file "y") ∧
    getNode (materialize [("./a.txt", "y"), ("a.txt", "x")] ["out"] emptyFS).1
      ["out", "a.txt"] = some (Node.file "x") :=
  ⟨List.Perm.swap _ _ _, by decide, by decide, by decide, by decide⟩

/-- C6 (amended): order independence — two manifests holding the same set of
entries in different orders produce identical trees from the same initial
state, provided the entries resolve to pairwise distinct paths and both runs
complete without error. -/
theorem C6_order_independent (m1 m2 : List Entry) (b : Path) (fs : FS)
    (hperm : List.Perm m1 m2) (hnd : (resolvedPaths b m1).Nodup)
    (h1 : (materialize m1 b fs).2 = none) (h2 : (materialize m2 b fs).2 = none) :
    (materialize m1 b fs).1 = (materialize m2 b fs).1 := by
  have hp1 : materialize m1 b fs = ((materialize m1 b fs).1, none) := by rw [← h1]
  have hp2 : materialize m2 b fs = ((materialize m2 b fs).1, none) := by rw [← h2]
  exact runEntries_perm_eq hperm hnd hp1 hp2

/-- C6 witness: the spec's example pair x/y/a.txt and x/b.txt, in both
orders. -/
theorem C6_witness :
    (resolvedPaths ["out"] [("x/y/a.txt", "aa"), ("x/b.txt", "bb")]).Nodup ∧
    (materialize [("x/y/a.txt", "aa"), ("x/b.txt", "bb")] ["out"] emptyFS).2 = none ∧
    (materialize [("x/b.txt", "bb"), ("x/y/a.txt", "aa")] ["out"] emptyFS).2 = none ∧
    (materialize [("x/y/a.txt", "aa"), ("x/b.txt", "bb")] ["out"] emptyFS).1
      = (materialize [("x/b.txt", "bb"), ("x/y/a.txt", "aa")] ["out"] emptyFS).1 :=
  ⟨by decide, by decide, by decide,
    C6_order_independent [("x/y/a.txt", "aa"), ("x/b.txt", "bb")]
      [("x/b.txt", "bb"), ("x/y/a.txt", "aa")] ["out"] emptyFS
      (List.Perm.swap _ _ _) (by decide) (by decide) (by decide)⟩

/-- C7 counterexample: an entry with empty content whose resolved path is
also the resolved path of a later entry: the run succeeds but the path holds
that later content, not a zero-byte file. -/
theorem C7_counterexample :
    (((("a" : String), ("" : String))) ∈ ([("a", ""), ("./a", "y")] : List Entry)) ∧
    (materialize [("a", ""), ("./a", "y")] ["out"] emptyFS).2 = none ∧
    getNode (materialize [("a", ""), ("./a", "y")] ["out"] emptyFS).1
      (joinPath ["out"] "a") = some (Node.file "y") ∧
    getNode (materialize [("a", ""), ("./a", "y")] ["out"] emptyFS).1
      (joinPath ["out"] "a") ≠ some (Node.file "") := by
  decide

/-- C7 (amended): empty content — for every manifest whose entries resolve
to pairwise distinct paths, after a successful run each entry with content
"" exists on disk as a zero-byte file (created, not skipped). -/
theorem C7_empty_content (m : List Entry) (b : Path) (fs : FS)
    (hok : (materialize m b fs).2 = none) (hnd : (resolvedPaths b m).Nodup)
    (p : String) (hmem : (p, "") ∈ m) :
    getNode (materialize m b fs).1 (joinPath b p) = some (Node.file "") := by
  have hpair : materialize m b fs = ((materialize m b fs).1, none) := by rw [← hok]
  exact runEntries_ok_complete hpair hnd hmem

/-- C7 witness: the .keep entry of the spec's example manifest. -/
theorem C7_witness :
    (materialize [("cfg/env.yml", "DEBUG=true\n"), ("cfg/sub/.keep", "")] ["o7"] emptyFS).2
      = none ∧
    (resolvedPaths ["o7"] [("cfg/env.yml", "DEBUG=true\n"), ("cfg/sub/.keep", "")]).Nodup ∧
    getNode (materialize [("cfg/env.yml", "DEBUG=true\n"), ("cfg/sub/.keep", "")]
        ["o7"] emptyFS).1 (joinPath ["o7"] "cfg/sub/.keep") = some (Node.file "") :=
  ⟨by decide, by decide,
    C7_empty_content [("cfg/env.yml", "DEBUG=true\n"), ("cfg/sub/.keep", "")] ["o7"] emptyFS
      (by decide) (by decide) "cfg/sub/.keep" (by decide)⟩

/-- C8: fail-fast error propagation — when processing of an entry fails
after a successful prefix, the whole run returns exactly that failing step's
state and error: the error is surfaced unchanged with no retry, no entry
after the failing one is processed, nothing is rolled back, and every
regular file present before the failing step — in particular everything the
prefix wrote — is still on disk with the same content. -/
theorem C8_fail_fast (b : Path) (fs : FS) (pre post : List Entry) (e : Entry)
    (hpre : (runEntries b pre fs).2 = none)
    (hfail : (processEntry b (runEntries b pre fs).1 e).2 ≠ none) :
    materialize (pre ++ e :: post) b fs = processEntry b (runEntries b pre fs).1 e ∧
    (∀ p c, (runEntries b pre fs).1 p = some (Node.file c) →
      (processEntry b (runEntries b pre fs).1 e).1 p = some (Node.file c)) := by
  constructor
  · unfold materialize
    rw [runEntries_append_ok hpre]
    cases hp : processEntry b (runEntries b pre fs).1 e with
    | mk fs1 r =>
      cases r with
      | none => rw [hp] at hfail; simp at hfail
      | some err => simp [runEntries, hp]
  · intro p c hfile
    cases hp : processEntry b (runEntries b pre fs).1 e with
    | mk fs1 r =>
      cases r with
      | none => rw [hp] at hfail; simp at hfail
      | some err => exact processEntry_fail_keeps_file hp hfile

/-- C8 witness: a prefix writes file "a", the next entry fails trying to
create directory "a", the run aborts there and the tail entry is never
processed. -/
theorem C8_witness :
    (runEntries ["out"] [("a", "x")] emptyFS).2 = none ∧
    (processEntry ["out"] (runEntries ["out"] [("a", "x")] emptyFS).1 ("a/b.txt", "y")).2
      ≠ none ∧
    materialize ([("a", "x")] ++ ("a/b.txt", "y") :: [("c.txt", "z")]) ["out"] emptyFS
      = processEntry ["out"] (runEntries ["out"] [("a", "x")] emptyFS).1 ("a/b.txt", "y") :=
  ⟨by decide, by decide,
    (C8_fail_fast ["out"] emptyFS [("a", "x")] [("c.txt", "z")] ("a/b.txt", "y")
      (by decide) (by decide)).1⟩

/-- C9: frame property — a run of the engine, successful or not, never
deletes a node: directories stay directories, files stay files; a file whose
path is not a resolved manifest entry path keeps its exact content; and a
previously empty position can only become a directory on an entry's parent
chain or a file at an entry's resolved path. -/
theorem C9_frame (m : List Entry) (b : Path) (fs : FS) (p : Path) :
    (fs p = some Node.dir → (materialize m b fs).1 p = some Node.dir) ∧
    (∀ c, fs p = some (Node.file c) →
      ∃ c', (materialize m b fs).1 p = some (Node.file c')) ∧
    (∀ c, fs p = some (Node.file c) → p ∉ resolvedPaths b m →
      (materialize m b fs).1 p = some (Node.file c)) ∧
    (fs p = none → (materialize m b fs).1 p = none ∨
      ((materialize m b fs).1 p = some Node.dir ∧ p ∈ allDirs b m) ∨
      (∃ c, (materialize m b fs).1 p = some (Node.file c) ∧ p ∈ resolvedPaths b m)) :=
  ⟨fun h => runEntries_keeps_dir h,
   fun _ h => runEntries_file_as_file h,
   fun _ h hmem => runEntries_untouched_file h hmem,
   fun h => runEntries_new h⟩

/-- C9 witness: a bystander file keep.txt outside the manifest keeps its
content across a run that creates out/a/b.txt. -/
theorem C9_witness :
    ((fun q => if q = ["keep.txt"] then some (Node.file "z") else none) : FS) ["keep.txt"]
      = some (Node.file "z") ∧
    ((["keep.txt"] : Path) ∉ resolvedPaths ["out"] [("a/b.txt", "y")]) ∧
    (materialize [("a/b.txt", "y")] ["out"]
      (fun q => if q = ["keep.txt"] then some (Node.file "z") else none)).1 ["keep.txt"]
      = some (Node.file "z") :=
  ⟨by decide, by decide,
    (C9_frame [("a/b.txt", "y")] ["out"]
      (fun q => if q = ["keep.txt"] then some (Node.file "z") else none)
      ["keep.txt"]).2.2.1 "z" (by decide) (by decide)⟩

/-- C10: duplicate-path impossibility — the script's dict and every Python
dict built from a literal have pairwise distinct path keys, so no two
entries share a path at materialization time; construction resolves a
duplicated literal key in place, and lookup yields the value of the last
pair of the literal with that key. -/
theorem C10_dict_unique_keys :
    ((structureDict.map Prod.fst).Nodup) ∧
    (∀ l : List Entry, ((dictOfList l).map Prod.fst).Nodup) ∧
    (∀ (l : List Entry) (k : String),
      dictLookup (dictOfList l) k =
        ((l.filter (fun e => e.1 = k)).getLast?).map (fun e => e.2)) :=
  ⟨dictOfList_keys_nodup structureTable, dictOfList_keys_nodup, dictOfList_lookup_last⟩

end GenStruct
